import Mathlib

/-!
Verification of the numerical-methods repository (root-search.py,
linear-algebra.py, euler.py, runge-kutta.py), shallowly embedded over ℚ.
Python floats are modelled as exact rationals; `print` diagnostics are
dropped (they do not influence returned values); numpy's total float
division is modelled by ℚ division (whose value at a zero divisor is 0).
-/

set_option maxRecDepth 4000

/-! ## root-search.py -/

/-- Fuel-indexed search for the least `e` with `a ≤ d * 2 ^ e`
(doubling `d` each step).  Helper for `ceilLog2`. -/
def ceilLog2N (a : ℕ) : ℕ → ℕ → ℕ
  | _, 0 => 0
  | d, fuel + 1 => if a ≤ d then 0 else ceilLog2N a (2 * d) fuel + 1

/-- Mathematical value of `int(np.ceil(np.log(q) / np.log(2.0)))` clamped at 0:
the least `e : ℕ` with `q ≤ 2 ^ e` (0 when `q ≤ 1`). -/
def ceilLog2 (q : ℚ) : ℕ :=
  if q.num ≤ 0 then 0 else ceilLog2N q.num.toNat q.den q.num.toNat

/-- Model of `np.sign` on rationals. -/
def npSign (q : ℚ) : ℚ :=
  if 0 < q then 1 else if q < 0 then -1 else 0

/-- The `for i in range(steps)` loop of `bisection` in root-search.py:
each pass recomputes the midpoint, narrows the bracket by the two sign
tests, returns the midpoint early when `f(m) == 0`, and otherwise leaves
the bracket unchanged; after the loop the midpoint is returned. -/
def bisectLoop (f : ℚ → ℚ) : ℚ → ℚ → ℕ → ℚ
  | x1, x2, 0 => (x1 + x2) / 2
  | x1, x2, s + 1 =>
    if f x1 * f ((x1 + x2) / 2) < 0 then bisectLoop f x1 ((x1 + x2) / 2) s
    else if f x2 * f ((x1 + x2) / 2) < 0 then bisectLoop f ((x1 + x2) / 2) x2 s
    else if f ((x1 + x2) / 2) = 0 then (x1 + x2) / 2
    else bisectLoop f x1 x2 s

/-- Function `bisection` from root-search.py.  `steps` is
`int(np.ceil(np.log(delta_x / tol) / np.log(2.0)))`; the same-sign check
only prints in the source, so it does not appear in the returned value. -/
def bisection (f : ℚ → ℚ) (a b tol : ℚ) : ℚ :=
  bisectLoop f a b (ceilLog2 (|b - a| / tol))

/-- Function `rbisection` from root-search.py.  `Except.error` models the
`raise Exception(...)` on same-sign endpoints; `Except.ok none` models the
implicit `return None` when no branch fires; otherwise the function
delegates to the iterative `bisection`. -/
def rbisection (f : ℚ → ℚ) (a b tol : ℚ) : Except String (Option ℚ) :=
  if npSign (f a) = npSign (f b) then
    Except.error "There is either no root or multiple roots"
  else
    let m := (a + b) / 2
    if |f m| < tol then Except.ok (some m)
    else if npSign (f a) = npSign (f m) then Except.ok (some (bisection f m b tol))
    else if npSign (f b) = npSign (f m) then Except.ok (some (bisection f a m tol))
    else Except.ok none

/-- The `while (f1*f2) > 0` loop of `incremental_search`: inside the loop
the `x1 >= b` test returns the `(None, None)` sentinel, otherwise the scan
advances by `dx`; when the product is no longer positive the current pair
is returned.  Fuel only guards termination; `incremental_search` supplies
enough fuel for every `dx > 0`. -/
def incLoopFuel (f : ℚ → ℚ) (b dx : ℚ) : ℕ → ℚ → Option (ℚ × ℚ)
  | 0, _ => none
  | fuel + 1, x1 =>
    if 0 < f x1 * f (x1 + dx) then
      if b ≤ x1 then none else incLoopFuel f b dx fuel (x1 + dx)
    else some (x1, x1 + dx)

/-- Function `incremental_search` from root-search.py. -/
def incremental_search (f : ℚ → ℚ) (a b dx : ℚ) : Option (ℚ × ℚ) :=
  incLoopFuel f b dx (⌈(b - a) / dx⌉₊ + 1) a

/-! ## linear-algebra.py -/

/-- Read `Ab[i, j]` on a matrix stored as a list of rows (0 outside bounds). -/
def getE (Ab : List (List ℚ)) (i j : ℕ) : ℚ :=
  (Ab.getD i []).getD j 0

/-- Assignment `Ab[i, j] = v`. -/
def setE (Ab : List (List ℚ)) (i j : ℕ) (v : ℚ) : List (List ℚ) :=
  Ab.set i ((Ab.getD i []).set j v)

/-- Function `swaprows` from linear-algebra.py: exchanges rows `i` and `j`. -/
def swaprows (i j : ℕ) (Ab : List (List ℚ)) : List (List ℚ) :=
  let ri := Ab.getD i []
  let rj := Ab.getD j []
  (Ab.set i rj).set j ri

/-- One pass of the pivot-search loop in `gauss_pp`: replace the running
`(MAX, I)` only on the strict comparison `m > MAX`. -/
def pivotStep (col : ℕ → ℚ) (s : ℚ × ℕ) (i : ℕ) : ℚ × ℕ :=
  if s.1 < |col i| then (|col i|, i) else s

/-- The pivot search of `gauss_pp`: start from `MAX = |Ab[k,k]|, I = k`
and scan rows `k+1 .. n-1` of column `k`. -/
def findPivot (Ab : List (List ℚ)) (k n : ℕ) : ℕ :=
  ((List.range' (k + 1) (n - (k + 1))).foldl
    (pivotStep (fun i => getE Ab i k)) (|getE Ab k k|, k)).2

/-- The inner elimination loop shared by `gauss_pp` and `gauss_npp`:
`Ab[j,:] = Ab[j,:] - c*Ab[k,:]` with `c = Ab[j,k]/Ab[k,k]` for
`j = k+1 .. n-1`. -/
def elimBelow (n k : ℕ) (Ab : List (List ℚ)) : List (List ℚ) :=
  (List.range' (k + 1) (n - (k + 1))).foldl
    (fun M j =>
      let c := getE M j k / getE M k k
      M.set j (List.zipWith (fun a b => a - c * b) (M.getD j []) (M.getD k [])))
    Ab

/-- Row-reduction phase of `gauss_npp`. -/
def rowReduce_npp (Ab : List (List ℚ)) : List (List ℚ) :=
  (List.range (Ab.length - 1)).foldl (fun M k => elimBelow Ab.length k M) Ab

/-- Row-reduction phase of `gauss_pp`: at each column the best pivot row
is swapped into place before eliminating. -/
def rowReduce_pp (Ab : List (List ℚ)) : List (List ℚ) :=
  (List.range (Ab.length - 1)).foldl
    (fun M k => elimBelow Ab.length k (swaprows (findPivot M k Ab.length) k M)) Ab

/-- One row `i` of the back-substitution loop shared by `gauss_pp` and
`gauss_npp`: subtract the already-substituted constants from column `m-1`
zeroing them, divide both sides by the diagonal, then multiply column `i`
of every earlier row by the solved value. -/
def backSubRow (m : ℕ) (Ab : List (List ℚ)) (i : ℕ) : List (List ℚ) :=
  let M1 := (List.range (m - 1)).foldl
    (fun M j =>
      if j = i then M
      else setE (setE M i (m - 1) (getE M i (m - 1) - getE M i j)) i j 0)
    Ab
  let M2 := setE M1 i (m - 1) (getE M1 i (m - 1) / getE M1 i i)
  let M3 := setE M2 i i (getE M2 i i / getE M2 i i)
  ((List.range i).reverse).foldl
    (fun M k => setE M k i (getE M k i * getE M i (m - 1))) M3

/-- Back-substitution on `[A:b]`, rows `n-1` down to `0`. -/
def backSub (Ab : List (List ℚ)) : List (List ℚ) :=
  let n := Ab.length
  let m := (Ab.getD 0 []).length
  ((List.range n).reverse).foldl (backSubRow m) Ab

/-- Function `gauss_npp` from linear-algebra.py: row reduce, then back-substitute. -/
def gauss_npp (Ab : List (List ℚ)) : List (List ℚ) :=
  backSub (rowReduce_npp Ab)

/-- Function `gauss_pp` from linear-algebra.py: partial-pivoted row reduction, then
the same back-substitution. -/
def gauss_pp (Ab : List (List ℚ)) : List (List ℚ) :=
  backSub (rowReduce_pp Ab)

/-- Column `Ab[:, -1]`: the last column, i.e. the solution vector after
elimination. -/
def lastCol (Ab : List (List ℚ)) : List ℚ :=
  Ab.map (fun r => r.getD (r.length - 1) 0)

/-- Model of `np.dot` on flattened vectors. -/
def npDot (u v : List ℚ) : ℚ :=
  (List.zipWith (fun a b => a * b) u v).sum

/-- Product `A*x` for an `n × n` matrix and an `n × 1` vector. -/
def matVec (A : List (List ℚ)) (x : List ℚ) : List ℚ :=
  A.map (fun r => npDot r x)

/-- Model of `np.max` over the entries of a vector. -/
def npMax : List ℚ → ℚ
  | [] => 0
  | h :: t => t.foldl max h

/-- One iteration of the `power_method` loop: `x = A*x`, then, when
`scale` is set, `x = np.divide(x, np.max(x))`. -/
def powerIter (A : List (List ℚ)) (scale : Bool) (x : List ℚ) : List ℚ :=
  let y := matVec A x
  if scale then y.map (fun v => v / npMax y) else y

/-- Function `power_method` from linear-algebra.py: `k` loop iterations (the
`debug` flag only prints), then the Rayleigh quotient on the final
iterate. -/
def power_method (A : List (List ℚ)) (x : List ℚ) (k : ℕ)
    (scale debug : Bool) : ℚ × List ℚ :=
  let xf := (List.range k).foldl (fun v _ => powerIter A scale v) x
  (npDot (matVec A xf) xf / npDot xf xf, xf)

/-- Follows the words of claim C6 (and spec §4.4): the component of
largest magnitude, keeping its sign — `if |acc| < |v|` instead of the
source's signed `np.max`. -/
def npLargestMagnitude : List ℚ → ℚ
  | [] => 0
  | h :: t => t.foldl (fun acc v => if |acc| < |v| then v else acc) h

/-- Follows the words of claim C6: rescale each iterate by its
largest-magnitude component (contrast with `powerIter`). -/
def powerIterMag (A : List (List ℚ)) (scale : Bool) (x : List ℚ) : List ℚ :=
  let y := matVec A x
  if scale then y.map (fun v => v / npLargestMagnitude y) else y

/-- The power method as claim C6 describes it, for comparison with the
source-faithful `power_method`. -/
def power_method_largestMag (A : List (List ℚ)) (x : List ℚ) (k : ℕ)
    (scale debug : Bool) : ℚ × List ℚ :=
  let xf := (List.range k).foldl (fun v _ => powerIterMag A scale v) x
  (npDot (matVec A xf) xf / npDot xf xf, xf)

/-! ## euler.py and runge-kutta.py (two-equation variants) -/

/-- The list of states visited by `k` applications of `step`, starting
state included (`k+1` entries). -/
def trajAux {α : Type} (step : α → α) : ℕ → α → List α
  | 0, s => [s]
  | k + 1, s => s :: trajAux step k (step s)

/-- One pass of the two-equation `euler` loop:
`x_{i+1} = x_i + h*f0(x_i, y_i)`, `y_{i+1} = y_i + h*f1(x_i, y_i)`. -/
def eulerStep (f0 f1 : ℚ → ℚ → ℚ) (h : ℚ) (s : ℚ × ℚ) : ℚ × ℚ :=
  (s.1 + h * f0 s.1 s.2, s.2 + h * f1 s.1 s.2)

/-- The (effective, second) `euler` of euler.py — the two-equation
variant.  `h = abs((xn - t0)/n)`, the loop runs `n+1` times and the lists
are returned untrimmed. -/
def euler (f0 f1 : ℚ → ℚ → ℚ) (t0 x0 t1 y0 : ℚ) (n : ℕ) (xn yn : ℚ)
    (debug : Bool) : List ℚ × List ℚ :=
  let h := |(xn - t0) / (n : ℚ)|
  let tr := trajAux (eulerStep f0 f1 h) (n + 1) (x0, y0)
  (tr.map (fun s => s.1), tr.map (fun s => s.2))

/-- One pass of the `rk2_two_eq` loop (two-stage update). -/
def rk2Step (f1 f2 : ℚ → ℚ → ℚ → ℚ) (h : ℚ) (s : ℚ × ℚ × ℚ) : ℚ × ℚ × ℚ :=
  let t := s.1
  let x := s.2.1
  let y := s.2.2
  let K11 := f1 t x y
  let K12 := f2 t x y
  let K21 := f1 (t + h / 2) (x + (h / 2) * K11) (y + (h / 2) * K12)
  let K22 := f2 (t + h / 2) (x + (h / 2) * K11) (y + (h / 2) * K12)
  (t + h, x + h * K21, y + h * K22)

/-- Function `rk2_two_eq` from runge-kutta.py: the loop runs `n+1` times and the
three lists are trimmed to `n+1` samples by `[:n+1]` before returning. -/
def rk2_two_eq (t0 tn : ℚ) (n : ℕ) (x0 y0 : ℚ) (f1 f2 : ℚ → ℚ → ℚ → ℚ)
    (debug : Bool) : List ℚ × List ℚ × List ℚ :=
  let h := |(tn - t0) / (n : ℚ)|
  let tr := trajAux (rk2Step f1 f2 h) (n + 1) (t0, x0, y0)
  ((tr.map (fun s => s.1)).take (n + 1),
   (tr.map (fun s => s.2.1)).take (n + 1),
   (tr.map (fun s => s.2.2)).take (n + 1))

/-- One pass of the `rk4_two_eq` loop (four-stage update, weights
`1/6, 2/6, 2/6, 1/6` via `(h/6)*(K1 + 2*K2 + 2*K3 + K4)`). -/
def rk4Step (f1 f2 : ℚ → ℚ → ℚ → ℚ) (h : ℚ) (s : ℚ × ℚ × ℚ) : ℚ × ℚ × ℚ :=
  let t := s.1
  let x := s.2.1
  let y := s.2.2
  let K11 := f1 t x y
  let K12 := f2 t x y
  let K21 := f1 (t + h / 2) (x + (h / 2) * K11) (y + (h / 2) * K12)
  let K22 := f2 (t + h / 2) (x + (h / 2) * K11) (y + (h / 2) * K12)
  let K31 := f1 (t + h / 2) (x + (h / 2) * K21) (y + (h / 2) * K22)
  let K32 := f2 (t + h / 2) (x + (h / 2) * K21) (y + (h / 2) * K22)
  let K41 := f1 (t + h) (x + h * K31) (y + h * K32)
  let K42 := f2 (t + h) (x + h * K31) (y + h * K32)
  (t + h,
   x + (h / 6) * (K11 + 2 * K21 + 2 * K31 + K41),
   y + (h / 6) * (K12 + 2 * K22 + 2 * K32 + K42))

/-- Function `rk4_two_eq` from runge-kutta.py: the loop runs `n+1` times and the
three lists are trimmed to `n+1` samples before returning. -/
def rk4_two_eq (t0 tn : ℚ) (n : ℕ) (x0 y0 : ℚ) (f1 f2 : ℚ → ℚ → ℚ → ℚ)
    (debug : Bool) : List ℚ × List ℚ × List ℚ :=
  let h := |(tn - t0) / (n : ℚ)|
  let tr := trajAux (rk4Step f1 f2 h) (n + 1) (t0, x0, y0)
  ((tr.map (fun s => s.1)).take (n + 1),
   (tr.map (fun s => s.2.1)).take (n + 1),
   (tr.map (fun s => s.2.2)).take (n + 1))

/-! ## Helper lemmas -/

/-- Helper `ceilLog2N` really finds an exponent: if some fuel-many doublings of
`d` reach `a`, the returned exponent does. -/
lemma ceilLog2N_spec (a : ℕ) :
    ∀ (fuel d : ℕ), 0 < d → a ≤ d * 2 ^ fuel → a ≤ d * 2 ^ ceilLog2N a d fuel := by
  intro fuel
  induction fuel with
  | zero =>
    intro d _ h
    simp only [ceilLog2N, pow_zero, Nat.mul_one] at h ⊢
    exact h
  | succ fuel ih =>
    intro d hd h
    by_cases had : a ≤ d
    · simp only [ceilLog2N, if_pos had, pow_zero, Nat.mul_one]
      exact had
    · have h' : a ≤ 2 * d * 2 ^ fuel := by
        calc a ≤ d * 2 ^ (fuel + 1) := h
        _ = 2 * d * 2 ^ fuel := by ring
      have := ih (2 * d) (by omega) h'
      simp only [ceilLog2N, if_neg had]
      calc a ≤ 2 * d * 2 ^ ceilLog2N a (2 * d) fuel := this
      _ = d * 2 ^ (ceilLog2N a (2 * d) fuel + 1) := by ring

/-- Bound for `ceilLog2`: `q ≤ 2 ^ ceilLog2 q`. -/
lemma le_pow_ceilLog2 (q : ℚ) : q ≤ 2 ^ ceilLog2 q := by
  unfold ceilLog2
  by_cases h : q.num ≤ 0
  · have hq : q ≤ 0 := by exact_mod_cast Rat.num_nonpos.mp h
    simp only [if_pos h, pow_zero]
    linarith
  · push_neg at h
    simp only [if_neg (not_le.mpr h)]
    have hd : 0 < q.den := q.pos
    have hfuel : q.num.toNat ≤ q.den * 2 ^ q.num.toNat :=
      le_trans (Nat.le_of_lt (Nat.lt_two_pow _)) (Nat.le_mul_of_pos_left _ hd)
    have hs := ceilLog2N_spec q.num.toNat q.num.toNat q.den hd hfuel
    have hqe : q = (q.num : ℚ) / (q.den : ℚ) := (Rat.num_div_den q).symm
    have hcast : ((q.num.toNat : ℕ) : ℚ) ≤
        (q.den : ℚ) * 2 ^ ceilLog2N q.num.toNat q.den q.num.toNat := by
      exact_mod_cast hs
    have hnum : (q.num : ℚ) = ((q.num.toNat : ℕ) : ℚ) := by
      exact_mod_cast (Int.toNat_of_nonneg h.le).symm
    conv_lhs => rw [hqe]
    rw [div_le_iff₀ (by exact_mod_cast hd), hnum]
    linarith

/-- Invariant of the `bisection` loop: starting from a bracket, after `s`
passes the function either returned an exact midpoint root early, or
returns the midpoint of a bracket of width `(x2 - x1) / 2 ^ s` still
exhibiting the sign change. -/
lemma bisectLoop_spec (f : ℚ → ℚ) :
    ∀ (s : ℕ) (x1 x2 : ℚ), x1 < x2 → f x1 * f x2 < 0 →
      f (bisectLoop f x1 x2 s) = 0 ∨
        ∃ u v, bisectLoop f x1 x2 s = (u + v) / 2 ∧ f u * f v < 0 ∧
          x1 ≤ u ∧ u < v ∧ v ≤ x2 ∧ v - u = (x2 - x1) / 2 ^ s := by
  intro s
  induction s with
  | zero =>
    intro x1 x2 hlt hsign
    exact Or.inr ⟨x1, x2, rfl, hsign, le_refl _, hlt, le_refl _, by norm_num⟩
  | succ s ih =>
    intro x1 x2 hlt hsign
    have hm1 : x1 < (x1 + x2) / 2 := by linarith
    have hm2 : (x1 + x2) / 2 < x2 := by linarith
    by_cases h1 : f x1 * f ((x1 + x2) / 2) < 0
    · rw [show bisectLoop f x1 x2 (s + 1) = bisectLoop f x1 ((x1 + x2) / 2) s by
        simp [bisectLoop, h1]]
      rcases ih x1 ((x1 + x2) / 2) hm1 h1 with h | ⟨u, v, he, hs', hu, huv, hv, hw⟩
      · exact Or.inl h
      · refine Or.inr ⟨u, v, he, hs', hu, huv, le_trans hv hm2.le, ?_⟩
        rw [hw, show (x1 + x2) / 2 - x1 = (x2 - x1) / 2 by ring, div_div, pow_succ]
        ring_nf
    · by_cases h2 : f x2 * f ((x1 + x2) / 2) < 0
      · rw [show bisectLoop f x1 x2 (s + 1) = bisectLoop f ((x1 + x2) / 2) x2 s by
          simp [bisectLoop, h1, h2]]
        have h2' : f ((x1 + x2) / 2) * f x2 < 0 := by rwa [mul_comm] at h2
        rcases ih ((x1 + x2) / 2) x2 hm2 h2' with h | ⟨u, v, he, hs', hu, huv, hv, hw⟩
        · exact Or.inl h
        · refine Or.inr ⟨u, v, he, hs', le_trans hm1.le hu, huv, hv, ?_⟩
          rw [hw, show x2 - (x1 + x2) / 2 = (x2 - x1) / 2 by ring, div_div, pow_succ]
          ring_nf
      · have h3 : f ((x1 + x2) / 2) = 0 := by
          by_contra h3
          have ha := not_lt.mp h1
          have hb := not_lt.mp h2
          nlinarith [mul_self_pos.mpr h3, mul_nonneg ha hb]
        rw [show bisectLoop f x1 x2 (s + 1) = (x1 + x2) / 2 by
          simp [bisectLoop, h1, h2, h3]]
        exact Or.inl h3

/-! ## Claim theorems -/

/-- C7: for every valid bracket (`f(a)` and `f(b)` of opposite sign,
`a < b`) and tolerance `tol > 0`, the iterative `bisection` runs exactly
`ceil(log2(|b-a|/tol))` halving iterations; each iteration either halves
the bracket via a sign test against the current midpoint or returns early
at an exact midpoint root, and the final value is the midpoint of the last
bracket (whose width is `(b-a)/2^steps ≤ tol`). -/
theorem C7_bisection_runs_ceil_log2_halvings (f : ℚ → ℚ) (a b tol : ℚ)
    (hab : a < b) (hsign : f a * f b < 0) (htol : 0 < tol) :
    bisection f a b tol = bisectLoop f a b (ceilLog2 (|b - a| / tol)) ∧
    (f (bisection f a b tol) = 0 ∨
      ∃ u v, bisection f a b tol = (u + v) / 2 ∧ f u * f v < 0 ∧
        a ≤ u ∧ u < v ∧ v ≤ b ∧
        v - u = (b - a) / 2 ^ ceilLog2 (|b - a| / tol) ∧ v - u ≤ tol) := by
  refine ⟨rfl, ?_⟩
  rcases bisectLoop_spec f (ceilLog2 (|b - a| / tol)) a b hab hsign with
    h | ⟨u, v, he, hs, hu, huv, hv, hw⟩
  · exact Or.inl h
  · refine Or.inr ⟨u, v, he, hs, hu, huv, hv, hw, ?_⟩
    have hq : |b - a| / tol ≤ 2 ^ ceilLog2 (|b - a| / tol) := le_pow_ceilLog2 _
    have hba : |b - a| = b - a := abs_of_pos (by linarith)
    have h2 : (0:ℚ) < 2 ^ ceilLog2 (|b - a| / tol) := by positivity
    rw [hw, div_le_iff₀ h2]
    rw [div_le_iff₀ htol] at hq
    linarith

/-- Witness for C7 at `f x = x² - 2`, bracket `(1, 2)`, `tol = 1/2`. -/
theorem C7_bisection_runs_ceil_log2_halvings_witness :
    ((1:ℚ) < 2 ∧ (fun x : ℚ => x * x - 2) 1 * (fun x : ℚ => x * x - 2) 2 < 0 ∧
      (0:ℚ) < 1/2) ∧
    (bisection (fun x : ℚ => x * x - 2) 1 2 (1/2) =
        bisectLoop (fun x : ℚ => x * x - 2) 1 2 (ceilLog2 (|(2:ℚ) - 1| / (1/2))) ∧
      ((fun x : ℚ => x * x - 2) (bisection (fun x : ℚ => x * x - 2) 1 2 (1/2)) = 0 ∨
        ∃ u v, bisection (fun x : ℚ => x * x - 2) 1 2 (1/2) = (u + v) / 2 ∧
          (fun x : ℚ => x * x - 2) u * (fun x : ℚ => x * x - 2) v < 0 ∧
          1 ≤ u ∧ u < v ∧ v ≤ 2 ∧
          v - u = (2 - 1) / 2 ^ ceilLog2 (|(2:ℚ) - 1| / (1/2)) ∧ v - u ≤ 1/2)) :=
  ⟨⟨by norm_num, by norm_num, by norm_num⟩,
    C7_bisection_runs_ceil_log2_halvings (fun x : ℚ => x * x - 2) 1 2 (1/2)
      (by norm_num) (by norm_num) (by norm_num)⟩

/-- C2: the claim says both bisection variants raise `InvalidBracketError`
on a same-sign bracket and never return a numeric midpoint.  `rbisection`
does raise, but the iterative `bisection` only prints the warning and
returns the midpoint `1/2` on the same-sign input `f x = x² + 1`,
`a = 0`, `b = 1`, `tol = 1/2`. -/
theorem C2_same_sign_iterative_bisection_returns_midpoint :
    bisection (fun x : ℚ => x * x + 1) 0 1 (1/2) = 1/2 ∧
    rbisection (fun x : ℚ => x * x + 1) 0 1 (1/2) =
      Except.error "There is either no root or multiple roots" := by
  constructor
  · norm_num [bisection, bisectLoop, ceilLog2, ceilLog2N]
  · norm_num [rbisection, npSign]

/-- C10: when the bracket is valid, `|f(m)| ≥ tol` for the midpoint
`m = (a+b)/2`, the recursive `rbisection` delegates to the iterative
`bisection` on the half-bracket selected by the sign tests —
`rbisection` is not recursive (its body never mentions itself, see the
definition of `rbisection`). -/
theorem C10_rbisection_delegates_to_bisection (f : ℚ → ℚ) (a b tol : ℚ)
    (hs : npSign (f a) ≠ npSign (f b)) (ht : tol ≤ |f ((a + b) / 2)|) :
    (npSign (f a) = npSign (f ((a + b) / 2)) →
      rbisection f a b tol = Except.ok (some (bisection f ((a + b) / 2) b tol))) ∧
    (npSign (f b) = npSign (f ((a + b) / 2)) →
      rbisection f a b tol = Except.ok (some (bisection f a ((a + b) / 2) tol))) := by
  have hnotlt : ¬ |f ((a + b) / 2)| < tol := not_lt.mpr ht
  constructor
  · intro h1
    simp only [rbisection, if_neg hs, if_neg hnotlt, if_pos h1]
  · intro h2
    have hne : npSign (f a) ≠ npSign (f ((a + b) / 2)) := fun hh => hs (hh.trans h2.symm)
    simp only [rbisection, if_neg hs, if_neg hnotlt, if_neg hne, if_pos h2]

/-- Witness for C10 at `f x = x`, `a = -1`, `b = 2`, `tol = 1/4`. -/
theorem C10_rbisection_delegates_to_bisection_witness :
    (npSign ((fun x : ℚ => x) (-1)) ≠ npSign ((fun x : ℚ => x) 2) ∧
      (1:ℚ)/4 ≤ |(fun x : ℚ => x) (((-1) + 2) / 2)|) ∧
    rbisection (fun x : ℚ => x) (-1) 2 (1/4) =
      Except.ok (some (bisection (fun x : ℚ => x) (-1) (((-1) + 2) / 2) (1/4))) :=
  ⟨⟨by norm_num [npSign], by rw [abs_of_nonneg] <;> norm_num⟩,
    (C10_rbisection_delegates_to_bisection (fun x : ℚ => x) (-1) 2 (1/4)
      (by norm_num [npSign]) (by rw [abs_of_nonneg] <;> norm_num)).2
      (by norm_num [npSign])⟩

/-- The `incremental_search` loop, started at grid point `k` with enough
fuel, returns according to the first grid index `j0` at which either a
sign change (`P`) or the end-of-interval test (`Q`) fires: the bracket at
`j0` when the sign change fired, the sentinel otherwise. -/
lemma incLoopFuel_eq (f : ℚ → ℚ) (a b dx : ℚ) (j0 : ℕ)
    (hhit : f (a + (j0 : ℚ) * dx) * f (a + ((j0 : ℚ) + 1) * dx) ≤ 0 ∨
      b ≤ a + (j0 : ℚ) * dx)
    (hmin : ∀ j : ℕ, j < j0 →
      ¬ f (a + (j : ℚ) * dx) * f (a + ((j : ℚ) + 1) * dx) ≤ 0 ∧
      ¬ b ≤ a + (j : ℚ) * dx) :
    ∀ (s k : ℕ), k ≤ j0 → j0 < k + s →
      incLoopFuel f b dx s (a + (k : ℚ) * dx) =
        if f (a + (j0 : ℚ) * dx) * f (a + ((j0 : ℚ) + 1) * dx) ≤ 0
        then some (a + (j0 : ℚ) * dx, a + ((j0 : ℚ) + 1) * dx) else none := by
  intro s
  induction s with
  | zero => intro k hk hlt; omega
  | succ s ih =>
    intro k hk hlt
    rcases eq_or_lt_of_le hk with heq | hklt
    · subst heq
      by_cases hp : f (a + (k : ℚ) * dx) * f (a + ((k : ℚ) + 1) * dx) ≤ 0
      · rw [if_pos hp]
        simp only [incLoopFuel]
        have hadd : a + (k : ℚ) * dx + dx = a + ((k : ℚ) + 1) * dx := by ring
        rw [hadd, if_neg (not_lt.mpr hp)]
      · have hq : b ≤ a + (k : ℚ) * dx := hhit.resolve_left hp
        rw [if_neg hp]
        simp only [incLoopFuel]
        have hadd : a + (k : ℚ) * dx + dx = a + ((k : ℚ) + 1) * dx := by ring
        rw [hadd, if_pos (not_le.mp hp), if_pos hq]
    · obtain ⟨hnp, hnq⟩ := hmin k hklt
      simp only [incLoopFuel]
      have hadd : a + (k : ℚ) * dx + dx = a + ((k : ℚ) + 1) * dx := by ring
      rw [hadd, if_pos (not_le.mp hnp), if_neg hnq]
      have hcast : a + ((k : ℚ) + 1) * dx = a + (((k + 1 : ℕ)) : ℚ) * dx := by
        push_cast; ring
      rw [hcast]
      exact ih (k + 1) (by omega) (by omega)

/-- C8: with `dx > 0`, `incremental_search` returns the `(None, None)`
sentinel exactly when the scan first reaches `x1 ≥ b` with no sign change
encountered (`¬P j0 ∧ Q j0` at the first index `j0` where `P` or `Q`
fires); otherwise it returns the first pair `(x1, x1 + dx)` scanning from
`a` with `f(x1) * f(x2) ≤ 0`.  `j0` is that first index, characterised by
the two hypotheses. -/
theorem C8_incremental_search_first_bracket_or_sentinel
    (f : ℚ → ℚ) (a b dx : ℚ) (hdx : 0 < dx) (j0 : ℕ)
    (hhit : f (a + (j0 : ℚ) * dx) * f (a + ((j0 : ℚ) + 1) * dx) ≤ 0 ∨
      b ≤ a + (j0 : ℚ) * dx)
    (hmin : ∀ j : ℕ, j < j0 →
      ¬ f (a + (j : ℚ) * dx) * f (a + ((j : ℚ) + 1) * dx) ≤ 0 ∧
      ¬ b ≤ a + (j : ℚ) * dx) :
    (f (a + (j0 : ℚ) * dx) * f (a + ((j0 : ℚ) + 1) * dx) ≤ 0 →
      incremental_search f a b dx =
        some (a + (j0 : ℚ) * dx, a + ((j0 : ℚ) + 1) * dx)) ∧
    (¬ f (a + (j0 : ℚ) * dx) * f (a + ((j0 : ℚ) + 1) * dx) ≤ 0 →
      b ≤ a + (j0 : ℚ) * dx ∧ incremental_search f a b dx = none) := by
  have hj0 : j0 ≤ ⌈(b - a) / dx⌉₊ := by
    by_contra hc
    push_neg at hc
    refine (hmin _ hc).2 ?_
    have h1 : (b - a) / dx ≤ ((⌈(b - a) / dx⌉₊ : ℕ) : ℚ) := Nat.le_ceil _
    have h2 : b - a ≤ ((⌈(b - a) / dx⌉₊ : ℕ) : ℚ) * dx := by
      rwa [div_le_iff₀ hdx] at h1
    linarith
  have key := incLoopFuel_eq f a b dx j0 hhit hmin (⌈(b - a) / dx⌉₊ + 1) 0
    (by omega) (by omega)
  have ha : a + ((0 : ℕ) : ℚ) * dx = a := by push_cast; ring
  rw [ha] at key
  unfold incremental_search
  constructor
  · intro hp; rw [key, if_pos hp]
  · intro hp; exact ⟨hhit.resolve_left hp, by rw [key, if_neg hp]⟩

/-- Witness for C8 at `f x = x - 1`, `a = 0`, `b = 3`, `dx = 1`,
first-hit index `j0 = 0` (since `f(0) * f(1) = 0 ≤ 0`). -/
theorem C8_incremental_search_first_bracket_or_sentinel_witness :
    incremental_search (fun x : ℚ => x - 1) 0 3 1 =
      some (0 + ((0 : ℕ) : ℚ) * 1, 0 + (((0 : ℕ) : ℚ) + 1) * 1) :=
  (C8_incremental_search_first_bracket_or_sentinel (fun x : ℚ => x - 1) 0 3 1
    (by norm_num) 0 (Or.inl (by norm_num))
    (fun j hj => absurd hj (Nat.not_lt_zero j))).1 (by norm_num)

/-- Invariant of the `gauss_pp` pivot-search fold: starting from the
running maximum `M = |col I|` over a strictly increasing list of indices
all beyond `I`, the fold returns the first index attaining the maximum of
`|col ·|` (the strict `m > MAX` comparison keeps the earlier index on
ties). -/
lemma pivotFold_spec (col : ℕ → ℚ) :
    ∀ (l : List ℕ) (M : ℚ) (I : ℕ) (r : ℚ × ℕ),
      r = l.foldl (pivotStep col) (M, I) → M = |col I| →
      l.Pairwise (· < ·) → (∀ j ∈ l, I < j) →
      r.1 = |col r.2| ∧ (r.2 = I ∨ r.2 ∈ l) ∧ M ≤ r.1 ∧
      (∀ j ∈ l, |col j| ≤ r.1) ∧ (r.2 ≠ I → M < r.1) ∧
      (∀ j ∈ l, |col j| = r.1 → r.2 ≤ j) := by
  intro l
  induction l with
  | nil =>
    intro M I r hr hM _ _
    subst hr
    exact ⟨hM, Or.inl rfl, le_refl _, fun j hj => absurd hj (List.not_mem_nil j),
      fun h => absurd rfl h, fun j hj _ => absurd hj (List.not_mem_nil j)⟩
  | cons i t ih =>
    intro M I r hr hM hpw hlt
    rw [List.foldl_cons] at hr
    have hpw' : t.Pairwise (· < ·) := (List.pairwise_cons.mp hpw).2
    by_cases hstep : M < |col i|
    · have hps : pivotStep col (M, I) i = (|col i|, i) := by
        simp [pivotStep, hstep]
      rw [hps] at hr
      have hlt' : ∀ j ∈ t, i < j := (List.pairwise_cons.mp hpw).1
      obtain ⟨h1, h2, h3, h4, h5, h6⟩ := ih (|col i|) i r hr rfl hpw' hlt'
      refine ⟨h1, ?_, ?_, ?_, ?_, ?_⟩
      · rcases h2 with h | h
        · exact Or.inr (by simp [h])
        · exact Or.inr (List.mem_cons_of_mem _ h)
      · exact le_trans hstep.le h3
      · intro j hj
        rcases List.mem_cons.mp hj with rfl | hj'
        · exact h3
        · exact h4 j hj'
      · intro _; exact lt_of_lt_of_le hstep h3
      · intro j hj hje
        rcases List.mem_cons.mp hj with rfl | hj'
        · by_contra hgt
          have hne : r.2 ≠ j := fun hh => hgt (le_of_eq hh)
          exact absurd hje (ne_of_lt (h5 hne))
        · exact h6 j hj' hje
    · have hps : pivotStep col (M, I) i = (M, I) := by
        simp [pivotStep, hstep]
      rw [hps] at hr
      have hlt' : ∀ j ∈ t, I < j := fun j hj => hlt j (List.mem_cons_of_mem _ hj)
      obtain ⟨h1, h2, h3, h4, h5, h6⟩ := ih M I r hr hM hpw' hlt'
      refine ⟨h1, ?_, h3, ?_, h5, ?_⟩
      · rcases h2 with h | h
        · exact Or.inl h
        · exact Or.inr (List.mem_cons_of_mem _ h)
      · intro j hj
        rcases List.mem_cons.mp hj with rfl | hj'
        · exact le_trans (not_lt.mp hstep) h3
        · exact h4 j hj'
      · intro j hj hje
        rcases List.mem_cons.mp hj with rfl | hj'
        · have hMr : M = r.1 := le_antisymm h3 (hje ▸ not_lt.mp hstep)
          have hrI : r.2 = I := by
            by_contra hne
            exact absurd hMr (ne_of_lt (h5 hne))
          rw [hrI]
          exact (hlt j (List.mem_cons_self _ _)).le
        · exact h6 j hj' hje

/-- C4: for every elimination column `k` of `gauss_pp` (any current
matrix state `Ab`, `k < n`), the row index returned by the pivot search —
the row swapped into position `k` — lies in `k .. n-1`, attains the
maximum of `|Ab[i,k]|` over rows `k .. n-1`, and is the smallest index
among the rows attaining that maximum (ties broken by first occurrence,
since `m > MAX` is strict and `(MAX, I)` starts at `(|Ab[k,k]|, k)`). -/
theorem C4_pivot_row_is_first_max (Ab : List (List ℚ)) (k n : ℕ) (hkn : k < n) :
    k ≤ findPivot Ab k n ∧ findPivot Ab k n < n ∧
    (∀ i, k ≤ i → i < n → |getE Ab i k| ≤ |getE Ab (findPivot Ab k n) k|) ∧
    (∀ i, k ≤ i → i < n → |getE Ab i k| = |getE Ab (findPivot Ab k n) k| →
      findPivot Ab k n ≤ i) := by
  have hpw : (List.range' (k + 1) (n - (k + 1))).Pairwise (· < ·) :=
    List.pairwise_lt_range' _ _
  have hlt : ∀ j ∈ List.range' (k + 1) (n - (k + 1)), k < j := by
    intro j hj
    exact lt_of_lt_of_le (Nat.lt_succ_self k) (List.mem_range'_1.mp hj).1
  obtain ⟨h1, h2, h3, h4, h5, h6⟩ :=
    pivotFold_spec (fun i => getE Ab i k) (List.range' (k + 1) (n - (k + 1)))
      (|getE Ab k k|) k _ rfl rfl hpw hlt
  have hmem : ∀ i, k < i → i < n → i ∈ List.range' (k + 1) (n - (k + 1)) := by
    intro i hki hin
    exact List.mem_range'_1.mpr ⟨by omega, by omega⟩
  have hrange : k ≤ findPivot Ab k n ∧ findPivot Ab k n < n := by
    unfold findPivot
    rcases h2 with h | h
    · rw [h]; omega
    · have := List.mem_range'_1.mp h
      omega
  have h1' : ((List.range' (k + 1) (n - (k + 1))).foldl
      (pivotStep (fun i => getE Ab i k)) (|getE Ab k k|, k)).1 =
      |getE Ab (findPivot Ab k n) k| := h1
  refine ⟨hrange.1, hrange.2, ?_, ?_⟩
  · intro i hki hin
    rcases eq_or_lt_of_le hki with heq | hki'
    · rw [← heq]
      exact le_of_le_of_eq h3 h1'
    · exact le_of_le_of_eq (h4 i (hmem i hki' hin)) h1'
  · intro i hki hin hje
    have hje' : |getE Ab i k| =
        ((List.range' (k + 1) (n - (k + 1))).foldl
          (pivotStep (fun i => getE Ab i k)) (|getE Ab k k|, k)).1 :=
      hje.trans h1'.symm
    rcases eq_or_lt_of_le hki with heq | hki'
    · have hMr : |getE Ab k k| =
          ((List.range' (k + 1) (n - (k + 1))).foldl
            (pivotStep (fun i => getE Ab i k)) (|getE Ab k k|, k)).1 := by
        rw [← heq] at hje'; exact hje'
      by_contra hgt
      push_neg at hgt
      have hne : findPivot Ab k n ≠ k := by
        intro hh
        rw [hh] at hgt
        omega
      exact absurd hMr (ne_of_lt (h5 hne))
    · exact h6 i (hmem i hki' hin) hje'

/-- Witness for C4 on `Ab = [[2,1],[4,1]]`, column `k = 0`, `n = 2` (the
pivot search selects row 1, whose entry 4 dominates). -/
theorem C4_pivot_row_is_first_max_witness :
    (0:ℕ) < 2 ∧
    |getE [[2,1],[4,1]] 0 0| ≤ |getE [[2,1],[4,1]] (findPivot [[2,1],[4,1]] 0 2) 0| :=
  ⟨by norm_num,
    (C4_pivot_row_is_first_max [[2,1],[4,1]] 0 2 (by norm_num)).2.2.1 0
      (Nat.le_refl 0) (by norm_num)⟩

/-- List `trajAux` records the initial state plus one state per step. -/
lemma trajAux_length {α : Type} (step : α → α) :
    ∀ (k : ℕ) (s : α), (trajAux step k s).length = k + 1 := by
  intro k
  induction k with
  | zero => intro s; rfl
  | succ k ih => intro s; simp [trajAux, ih]

/-- A `for i in range(k)` loop whose body ignores the counter is `k`-fold
iteration. -/
lemma foldl_const_fun {α : Type} (g : α → α) :
    ∀ (k : ℕ) (s : α), (List.range k).foldl (fun v _ => g v) s = g^[k] s := by
  intro k
  induction k with
  | zero => intro s; rfl
  | succ k ih =>
    intro s
    rw [List.range_succ, List.foldl_append, ih, List.foldl_cons, List.foldl_nil,
      Function.iterate_succ_apply']

/-- When every step advances the first component by `h`, the trajectory's
first components form the arithmetic grid starting at the initial value. -/
lemma trajAux_map_fst (step : ℚ × ℚ × ℚ → ℚ × ℚ × ℚ) (h : ℚ)
    (hstep : ∀ s, (step s).1 = s.1 + h) :
    ∀ (k : ℕ) (s : ℚ × ℚ × ℚ),
      (trajAux step k s).map (fun p => p.1) =
        (List.range (k + 1)).map (fun i : ℕ => s.1 + (i : ℚ) * h) := by
  intro k
  induction k with
  | zero => intro s; simp [trajAux, List.range_succ]
  | succ k ih =>
    intro s
    simp only [trajAux, List.map_cons]
    rw [ih (step s), hstep s]
    conv_rhs => rw [List.range_succ_eq_map]
    simp only [List.map_cons, List.map_map]
    congr 1
    · norm_num
    · have hfun : ((fun i : ℕ => s.1 + (i : ℚ) * h) ∘ Nat.succ) =
          (fun i : ℕ => s.1 + h + (i : ℚ) * h) := by
        funext i
        simp only [Function.comp_apply]
        push_cast
        ring
      rw [hfun]

/-- C5 counterexample: the claim says the two-equation `euler` returns
trajectories trimmed to `n + 1` samples; at `n = 1` (zero right-hand
sides) it returns `3 = n + 2` samples — euler.py performs no `[:n+1]`
trim. -/
theorem C5_counterexample_euler_untrimmed :
    (euler (fun _ _ => 0) (fun _ _ => 0) 0 0 0 0 1 1 0 false).1.length = 3 ∧
    (3 : ℕ) ≠ 1 + 1 := by
  constructor
  · norm_num [euler, trajAux, eulerStep]
  · norm_num

/-- C5 (amended): for every `n ≥ 1` each two-equation variant executes
its update loop `n + 1` times with step size `h = |tn - t0| / n`;
`rk2_two_eq` and `rk4_two_eq` trim the resulting `n + 2` samples to
exactly `n + 1` (returning the grid `t0 + i*h`), while the two-equation
`euler` returns its `n + 2` samples untrimmed. -/
theorem C5_two_eq_variants_loop_and_samples (f0 f1 : ℚ → ℚ → ℚ)
    (g1 g2 : ℚ → ℚ → ℚ → ℚ) (t0 x0 t1 y0 xn yn tn : ℚ) (n : ℕ)
    (hn : 1 ≤ n) (d : Bool) :
    ((euler f0 f1 t0 x0 t1 y0 n xn yn d).1.length = n + 2 ∧
      (euler f0 f1 t0 x0 t1 y0 n xn yn d).2.length = n + 2) ∧
    ((trajAux (rk2Step g1 g2 (|(tn - t0) / (n : ℚ)|)) (n + 1) (t0, x0, y0)).length
        = n + 2 ∧
      (rk2_two_eq t0 tn n x0 y0 g1 g2 d).1.length = n + 1 ∧
      (rk2_two_eq t0 tn n x0 y0 g1 g2 d).2.1.length = n + 1 ∧
      (rk2_two_eq t0 tn n x0 y0 g1 g2 d).2.2.length = n + 1 ∧
      (rk2_two_eq t0 tn n x0 y0 g1 g2 d).1 =
        (List.range (n + 1)).map (fun i : ℕ => t0 + (i : ℚ) * (|tn - t0| / (n : ℚ)))) ∧
    ((rk4_two_eq t0 tn n x0 y0 g1 g2 d).1.length = n + 1 ∧
      (rk4_two_eq t0 tn n x0 y0 g1 g2 d).2.1.length = n + 1 ∧
      (rk4_two_eq t0 tn n x0 y0 g1 g2 d).2.2.length = n + 1 ∧
      (rk4_two_eq t0 tn n x0 y0 g1 g2 d).1 =
        (List.range (n + 1)).map (fun i : ℕ => t0 + (i : ℚ) * (|tn - t0| / (n : ℚ)))) := by
  have habs : |(tn - t0) / (n : ℚ)| = |tn - t0| / (n : ℚ) := by
    rw [abs_div, Nat.abs_cast]
  refine ⟨⟨?_, ?_⟩, ⟨?_, ?_, ?_, ?_, ?_⟩, ⟨?_, ?_, ?_, ?_⟩⟩
  · simp [euler, trajAux_length]
  · simp [euler, trajAux_length]
  · simp [trajAux_length]
  · simp [rk2_two_eq, List.length_take, trajAux_length]
  · simp [rk2_two_eq, List.length_take, trajAux_length]
  · simp [rk2_two_eq, List.length_take, trajAux_length]
  · simp only [rk2_two_eq]
    rw [trajAux_map_fst (rk2Step g1 g2 (|(tn - t0) / (n : ℚ)|))
        (|(tn - t0) / (n : ℚ)|) (fun s => rfl) (n + 1) (t0, x0, y0),
      ← List.map_take, List.take_range, min_eq_left (by omega), habs]
  · simp [rk4_two_eq, List.length_take, trajAux_length]
  · simp [rk4_two_eq, List.length_take, trajAux_length]
  · simp [rk4_two_eq, List.length_take, trajAux_length]
  · simp only [rk4_two_eq]
    rw [trajAux_map_fst (rk4Step g1 g2 (|(tn - t0) / (n : ℚ)|))
        (|(tn - t0) / (n : ℚ)|) (fun s => rfl) (n + 1) (t0, x0, y0),
      ← List.map_take, List.take_range, min_eq_left (by omega), habs]

/-- Witness for C5 (amended) at `n = 1` with zero right-hand sides. -/
theorem C5_two_eq_variants_loop_and_samples_witness :
    (1 : ℕ) ≤ 1 ∧
    (euler (fun _ _ => 0) (fun _ _ => 0) 0 0 0 0 1 0 0 false).1.length = 1 + 2 :=
  ⟨le_refl 1,
    (C5_two_eq_variants_loop_and_samples (fun _ _ => 0) (fun _ _ => 0)
      (fun _ _ _ => 0) (fun _ _ _ => 0) 0 0 0 0 0 0 0 1 (le_refl 1) false).1.1⟩

/-- C6 counterexample: the claim says each scaled iteration divides by
the largest-magnitude component; the code divides by `np.max`, the
largest signed component.  On `A = [[-2,0],[0,1]]`, `x = (1,1)`, `k = 1`
the code's iterate is `A·x = (-2,1)` divided by `np.max = 1`, i.e.
`(-2,1)`, while the claim's prescription divides by the
largest-magnitude component `-2`, giving `(1,-1/2)`. -/
theorem C6_counterexample_scaling_uses_signed_max :
    (power_method [[-2,0],[0,1]] [1,1] 1 true false).2 = [-2, 1] ∧
    (power_method_largestMag [[-2,0],[0,1]] [1,1] 1 true false).2 = [1, -(1:ℚ)/2] ∧
    (power_method [[-2,0],[0,1]] [1,1] 1 true false).2 ≠
      (power_method_largestMag [[-2,0],[0,1]] [1,1] 1 true false).2 := by
  refine ⟨?_, ?_, ?_⟩
  · norm_num [power_method, powerIter, matVec, npDot, npMax, List.range_succ]
  · norm_num [power_method_largestMag, powerIterMag, matVec, npDot,
      npLargestMagnitude, List.range_succ]
  · norm_num [power_method, powerIter, power_method_largestMag, powerIterMag,
      matVec, npDot, npMax, npLargestMagnitude, List.range_succ]

/-- C6 (amended): for every square matrix, vector and count `k`,
`power_method` with `scale = True` performs exactly `k` iterations of
`x ← A·x` each followed by division of `x` by its maximum component
(`np.max`, the largest signed value — not the largest-magnitude one),
with no convergence check ending the loop early, and returns the Rayleigh
quotient `(x·Ax)/(x·x)` computed on the final iterate together with that
iterate. -/
theorem C6_power_method_fixed_iteration_budget (A : List (List ℚ))
    (x : List ℚ) (k : ℕ) (d : Bool) :
    power_method A x k true d =
      (npDot (matVec A ((powerIter A true)^[k] x)) ((powerIter A true)^[k] x) /
        npDot ((powerIter A true)^[k] x) ((powerIter A true)^[k] x),
       (powerIter A true)^[k] x) := by
  unfold power_method
  rw [foldl_const_fun (powerIter A true) k x]

/-- C9: the `debug` flag of the two-equation `euler`, `rk2_two_eq`,
`rk4_two_eq` and `power_method` only gates `print` statements in the
source; the returned values are identical with `debug = True` and
`debug = False`. -/
theorem C9_debug_flag_is_pure_side_channel :
    (∀ (f0 f1 : ℚ → ℚ → ℚ) (t0 x0 t1 y0 : ℚ) (n : ℕ) (xn yn : ℚ),
      euler f0 f1 t0 x0 t1 y0 n xn yn true = euler f0 f1 t0 x0 t1 y0 n xn yn false) ∧
    (∀ (t0 tn : ℚ) (n : ℕ) (x0 y0 : ℚ) (g1 g2 : ℚ → ℚ → ℚ → ℚ),
      rk2_two_eq t0 tn n x0 y0 g1 g2 true = rk2_two_eq t0 tn n x0 y0 g1 g2 false) ∧
    (∀ (t0 tn : ℚ) (n : ℕ) (x0 y0 : ℚ) (g1 g2 : ℚ → ℚ → ℚ → ℚ),
      rk4_two_eq t0 tn n x0 y0 g1 g2 true = rk4_two_eq t0 tn n x0 y0 g1 g2 false) ∧
    (∀ (A : List (List ℚ)) (x : List ℚ) (k : ℕ) (sc : Bool),
      power_method A x k sc true = power_method A x k sc false) :=
  ⟨fun _ _ _ _ _ _ _ _ _ => rfl, fun _ _ _ _ _ _ _ => rfl,
    fun _ _ _ _ _ _ _ => rfl, fun _ _ _ _ => rfl⟩

/-- The augmented system `[[2,1,1|5],[4,-6,0|-2],[-2,7,2|9]]` from the
spec's test properties. -/
def acSystem : List (List ℚ) := [[2,1,1,5],[4,-6,0,-2],[-2,7,2,9]]

/-- C3: on `[[2,1,1|5],[4,-6,0|-2],[-2,7,2|9]]` the pivoted `gauss_pp`
and the non-pivoted `gauss_npp` produce the same solution column
`[1, 1, 2]`, which is the unique solution of the system. -/
theorem C3_gauss_pp_npp_same_solution :
    lastCol (gauss_pp acSystem) = lastCol (gauss_npp acSystem) ∧
    lastCol (gauss_pp acSystem) = [1, 1, 2] ∧
    (∀ x y z : ℚ, 2*x + y + z = 5 → 4*x - 6*y = -2 → -2*x + 7*y + 2*z = 9 →
      x = 1 ∧ y = 1 ∧ z = 2) := by
  have hpp : lastCol (gauss_pp acSystem) = [1, 1, 2] := by
    norm_num [acSystem, gauss_pp, rowReduce_pp, backSub, backSubRow, elimBelow,
      findPivot, pivotStep, swaprows, getE, setE, lastCol, List.range_succ, List.range']
  have hnpp : lastCol (gauss_npp acSystem) = [1, 1, 2] := by
    norm_num [acSystem, gauss_npp, rowReduce_npp, backSub, backSubRow, elimBelow,
      getE, setE, lastCol, List.range_succ, List.range']
  refine ⟨hpp.trans hnpp.symm, hpp, ?_⟩
  intro x y z h1 h2 h3
  refine ⟨by linarith, by linarith, by linarith⟩

/-- Witness for C3: the inner uniqueness implication applied at the
solution `(1, 1, 2)` itself. -/
theorem C3_gauss_pp_npp_same_solution_witness :
    lastCol (gauss_pp acSystem) = lastCol (gauss_npp acSystem) ∧
    ((1:ℚ) = 1 ∧ (1:ℚ) = 1 ∧ (2:ℚ) = 2) :=
  ⟨C3_gauss_pp_npp_same_solution.1,
    C3_gauss_pp_npp_same_solution.2.2 1 1 2 (by norm_num) (by norm_num) (by norm_num)⟩

/-- A singular augmented system for `gauss_npp`: the leading pivot
`Ab[0,0]` is zero. -/
def singSysNpp : List (List ℚ) := [[0,1,2],[1,0,3]]

/-- A singular augmented system for `gauss_pp`: after eliminating
column 0 the remaining rows are zero, so the best pivot for column 1 is
zero even after the partial-pivot swap. -/
def singSysPp : List (List ℚ) := [[1,1,1,3],[2,2,2,6],[3,3,3,9]]

/-- C1: on singular coefficient blocks neither eliminator signals any
error — there is no error outcome in either function; both divide by the
zero pivot (NaN/Inf under numpy, 0 under the total ℚ division modelled
here) and return a matrix.  For `gauss_npp` the pivot `Ab[0,0]` is zero
outright; for `gauss_pp`, after the partial-pivot swap for column 1 the
pivot position `Ab[1,1]` still holds zero (the pivot search over rows
1..2 returns row 1 with running maximum 0), yet both functions return a
finite matrix instead of raising `SingularMatrixError`. -/
theorem C1_zero_pivot_not_signalled :
    getE singSysNpp 0 0 = 0 ∧
    gauss_npp singSysNpp = [[0,0,0],[0,0,0]] ∧
    findPivot (elimBelow 3 0 (swaprows (findPivot singSysPp 0 3) 0 singSysPp)) 1 3
      = 1 ∧
    getE (elimBelow 3 0 (swaprows (findPivot singSysPp 0 3) 0 singSysPp)) 1 1 = 0 ∧
    gauss_pp singSysPp = [[1,0,0,3],[0,0,0,0],[0,0,0,0]] := by
  refine ⟨?_, ?_, ?_, ?_, ?_⟩
  · norm_num [singSysNpp, getE]
  · norm_num [singSysNpp, gauss_npp, rowReduce_npp, backSub, backSubRow, elimBelow,
      getE, setE, List.range_succ, List.range']
  · norm_num [singSysPp, elimBelow, swaprows, findPivot, pivotStep, getE, setE,
      List.range']
  · norm_num [singSysPp, elimBelow, swaprows, findPivot, pivotStep, getE, setE,
      List.range']
  · norm_num [singSysPp, gauss_pp, rowReduce_pp, backSub, backSubRow, elimBelow,
      findPivot, pivotStep, swaprows, getE, setE, List.range_succ, List.range']
